import Mathlib

/-!
Shallow embedding of two tiny-dnn layers:
`partial_connected_layer` (src/tiny_dnn/layers/partial_connected_layer.h) and
`dropout_layer` (src/tiny_dnn/layers/dropout_layer.h).

Modelling conventions:
* `float_t` is modelled as `ℚ` (exact field arithmetic; floating-point
  rounding is abstracted away).
* A `Tensor` of shape [batch, feature] is a `List (List ℚ)`; the flat weight
  and bias parameter tensors are `List ℚ`.  `host_at` is `List.getD` with
  default 0, and `in.size()` / `shape()[0]` is `List.length`.
* `for_i`, the parallel-for primitive, is modelled as sequential iteration
  over `List.range`; every use in the source writes index-disjoint slots,
  so iteration order is irrelevant.
* the Bernoulli sampler and `max_size` live in tiny_dnn/util/util.h, which
  is outside the given sources; they are modelled from the spec where needed
  (see the doc comments on `max_size` and `dropout_layer.forward_propagation`).
-/

namespace TinyDnn

/-! ## partial_connected_layer (src/tiny_dnn/layers/partial_connected_layer.h)

State of the class: the five adjacency tables and the scale factor.
`weight2io` maps weight_id -> [(in_id, out_id)], `out2wi` maps
out_id -> [(weight_id, in_id)], `in2wo` maps in_id -> [(weight_id, out_id)],
`bias2out` maps bias_id -> [out_id], `out2bias` maps out_id -> bias_id. -/

structure PartialConnectedLayer where
  weight2io : List (List (ℕ × ℕ))
  out2wi : List (List (ℕ × ℕ))
  in2wo : List (List (ℕ × ℕ))
  bias2out : List (List ℕ)
  out2bias : List ℕ
  scale_factor : ℚ

namespace PartialConnectedLayer

/-- The constructor: every adjacency list empty, `out2bias_` zero-filled
(`std::vector<size_t>(out_dim)` value-initializes to 0). -/
def mkLayer (in_dim out_dim weight_dim bias_dim : ℕ) (scale : ℚ) :
    PartialConnectedLayer where
  weight2io := List.replicate weight_dim []
  out2wi := List.replicate out_dim []
  in2wo := List.replicate in_dim []
  bias2out := List.replicate bias_dim []
  out2bias := List.replicate out_dim 0
  scale_factor := scale

/-- Source `param_size`: the two counting loops of the source. -/
def param_size (l : PartialConnectedLayer) : ℕ :=
  l.bias2out.foldl (fun t b => if 0 < b.length then t + 1 else t)
    (l.weight2io.foldl (fun t w => if 0 < w.length then t + 1 else t) 0)

/-- Modelled from the spec: `max_size` (tiny_dnn/util/util.h, not under src/)
is used by `fan_in_size`/`fan_out_size`; per the spec these report "the
maximum adjacency-list length across" the respective tables. -/
def max_size {α : Type} (v : List (List α)) : ℕ :=
  v.foldl (fun m x => max m x.length) 0

def fan_in_size (l : PartialConnectedLayer) : ℕ := max_size l.out2wi

def fan_out_size (l : PartialConnectedLayer) : ℕ := max_size l.in2wo

/-- Source `connect_weight`: appends the connection to all three directional
tables. -/
def connect_weight (l : PartialConnectedLayer)
    (input_index output_index weight_index : ℕ) : PartialConnectedLayer :=
  { l with
    weight2io := l.weight2io.set weight_index
      (l.weight2io.getD weight_index [] ++ [(input_index, output_index)])
    out2wi := l.out2wi.set output_index
      (l.out2wi.getD output_index [] ++ [(weight_index, input_index)])
    in2wo := l.in2wo.set input_index
      (l.in2wo.getD input_index [] ++ [(weight_index, output_index)]) }

/-- Source `connect_bias`: overwrites `out2bias_[output_index]` and appends to
`bias2out_[bias_index]`. -/
def connect_bias (l : PartialConnectedLayer)
    (bias_index output_index : ℕ) : PartialConnectedLayer :=
  { l with
    out2bias := l.out2bias.set output_index bias_index
    bias2out := l.bias2out.set bias_index
      (l.bias2out.getD bias_index [] ++ [output_index]) }

/-- The value the forward loop leaves in output slot `i` of one sample:
accumulate `W[w] * in[sample, j]` over `out2wi_[i]`, multiply by the scale
factor, add `b[out2bias_[i]]`. -/
def forwardOut (l : PartialConnectedLayer) (W b inRow : List ℚ) (i : ℕ) : ℚ :=
  ((l.out2wi.getD i []).foldl
      (fun acc c => acc + W.getD c.1 0 * inRow.getD c.2 0) 0)
    * l.scale_factor + b.getD (l.out2bias.getD i 0) 0

/-- Source `forward_propagation`: for every sample, for every `i < out2wi_.size()`,
overwrite output slot `(sample, i)` with `forwardOut`.  `out0` is the
caller-supplied output tensor being written into. -/
def forward_propagation (l : PartialConnectedLayer) (W b : List ℚ)
    (input out0 : List (List ℚ)) : List (List ℚ) :=
  (List.range input.length).foldl
    (fun out sample => out.set sample
      ((List.range l.out2wi.length).foldl
        (fun row i => row.set i (forwardOut l W b (input.getD sample []) i))
        (out.getD sample [])))
    out0

/-- The value accumulated into `prev_delta[sample][i]` by the backward loop:
`sum over (w,o) in in2wo_[i] of W[w] * curr_delta[sample][o]`, times the scale
factor. -/
def pdVal (l : PartialConnectedLayer) (W : List ℚ) (curr_delta : List (List ℚ))
    (sample i : ℕ) : ℚ :=
  ((l.in2wo.getD i []).foldl
      (fun acc c => acc + W.getD c.1 0 * (curr_delta.getD sample []).getD c.2 0) 0)
    * l.scale_factor

/-- The per-sample `diff` added (before scaling) into `dW[i]`:
`sum over (in,out) in weight2io_[i] of prev_out[sample][in] * curr_delta[sample][out]`. -/
def dWDiff (l : PartialConnectedLayer) (prev_out curr_delta : List (List ℚ))
    (sample i : ℕ) : ℚ :=
  (l.weight2io.getD i []).foldl
    (fun acc c => acc + (prev_out.getD sample []).getD c.1 0
      * (curr_delta.getD sample []).getD c.2 0) 0

/-- The per-sample `diff` added into `db[i]`:
`sum over o in bias2out_[i] of curr_delta[sample][o]`. -/
def dbDiff (l : PartialConnectedLayer) (curr_delta : List (List ℚ))
    (sample i : ℕ) : ℚ :=
  (l.bias2out.getD i []).foldl
    (fun acc o => acc + (curr_delta.getD sample []).getD o 0) 0

/-- One sample's update of `prev_delta` (overwrites row `sample` slot by
slot for `i < in2wo_.size()`). -/
def pdStep (l : PartialConnectedLayer) (W : List ℚ)
    (curr_delta : List (List ℚ)) (pd : List (List ℚ)) (sample : ℕ) :
    List (List ℚ) :=
  pd.set sample
    ((List.range l.in2wo.length).foldl
      (fun row i => row.set i (pdVal l W curr_delta sample i))
      (pd.getD sample []))

/-- One sample's update of `dW` (`dW[i] += diff * scale_factor` for
`i < weight2io_.size()`). -/
def dWStep (l : PartialConnectedLayer) (prev_out curr_delta : List (List ℚ))
    (dw : List ℚ) (sample : ℕ) : List ℚ :=
  (List.range l.weight2io.length).foldl
    (fun acc i => acc.set i
      (acc.getD i 0 + dWDiff l prev_out curr_delta sample i * l.scale_factor))
    dw

/-- One sample's update of `db` (`db[i] += diff` for `i < bias2out_.size()`). -/
def dbStep (l : PartialConnectedLayer) (curr_delta : List (List ℚ))
    (db : List ℚ) (sample : ℕ) : List ℚ :=
  (List.range l.bias2out.length).foldl
    (fun acc i => acc.set i (acc.getD i 0 + dbDiff l curr_delta sample i))
    db

/-- Source `back_propagation`: iterate the three per-sample updates over all
samples, threading the caller-supplied `(prev_delta, dW, db)` buffers. -/
def back_propagation (l : PartialConnectedLayer) (W : List ℚ)
    (prev_out curr_delta : List (List ℚ))
    (st0 : List (List ℚ) × List ℚ × List ℚ) :
    List (List ℚ) × List ℚ × List ℚ :=
  (List.range prev_out.length).foldl
    (fun st sample =>
      (pdStep l W curr_delta st.1 sample,
       dWStep l prev_out curr_delta st.2.1 sample,
       dbStep l curr_delta st.2.2 sample))
    st0

/-- Every triple `(i, o, w)` occurs the same number of times in the three
directional views. -/
def TripleCountConsistent (l : PartialConnectedLayer) : Prop :=
  ∀ i o w : ℕ,
    (l.weight2io.getD w []).count (i, o) = (l.out2wi.getD o []).count (w, i)
    ∧ (l.weight2io.getD w []).count (i, o) = (l.in2wo.getD i []).count (w, o)

def applyConnectWeights (l : PartialConnectedLayer)
    (calls : List (ℕ × ℕ × ℕ)) : PartialConnectedLayer :=
  calls.foldl (fun acc c => acc.connect_weight c.1 c.2.1 c.2.2) l

def applyConnectBiases (l : PartialConnectedLayer)
    (calls : List (ℕ × ℕ)) : PartialConnectedLayer :=
  calls.foldl (fun acc c => acc.connect_bias c.1 c.2) l

/-- The bias-id of the most recent call in `calls` naming output `o`. -/
def lastBiasFor (calls : List (ℕ × ℕ)) (o : ℕ) : Option ℕ :=
  (calls.reverse.find? (fun c => c.2 == o)).map (fun c => c.1)

end PartialConnectedLayer

/-! ## dropout_layer (src/tiny_dnn/layers/dropout_layer.h) -/

inductive NetPhase where
  | train : NetPhase
  | test : NetPhase
  deriving DecidableEq

/-- State of the dropout layer: phase, rate, scale (`1/(1-rate)`), declared
input size, and the per-sample mask store (`uint8` entries as `ℕ`). -/
structure dropout_layer where
  phase : NetPhase
  dropout_rate : ℚ
  scale : ℚ
  in_size : ℕ
  mask : List (List ℕ)

namespace dropout_layer

/-- The constructor: one zero-filled mask row of length `in_dim`
(`mask_.resize(1, ...)` followed by `clear_mask()`). -/
def mkDropout (in_dim : ℕ) (rate : ℚ) (phase : NetPhase) : dropout_layer where
  phase := phase
  dropout_rate := rate
  scale := 1 / (1 - rate)
  in_size := in_dim
  mask := [List.replicate in_dim 0]

/-- The mask-store growth step of `forward_propagation`
(`if (mask_.size() < sample_count) mask_.resize(sample_count, mask_[0])`):
appends copies of the first row until the store has `sample_count` rows. -/
def growMask (mask : List (List ℕ)) (sample_count : ℕ) : List (List ℕ) :=
  if mask.length < sample_count then
    mask ++ List.replicate (sample_count - mask.length) (mask.getD 0 [])
  else mask

/-- The mask store after a training-phase forward call: row `sample` gets
`mask[i] = bernoulli(dropout_rate_)` for every `i` below that sample's
input length.  Modelled from the spec: the Bernoulli sampler
(tiny_dnn/util/util.h, not under src/) is an oracle `draws`; `draws s i`
is the boolean the sampler returns for unit `i` of sample `s` (stored as
the `uint8` mask bit, `true ↦ 1`); per the spec a unit is dropped — its
mask bit is 0 — with probability `dropout_rate`. -/
def trainMask (l : dropout_layer) (draws : ℕ → ℕ → Bool)
    (input : List (List ℚ)) : List (List ℕ) :=
  (List.range input.length).foldl
    (fun m sample => m.set sample
      ((List.range (input.getD sample []).length).foldl
        (fun row i => row.set i (if draws sample i then 1 else 0))
        (m.getD sample [])))
    (growMask l.mask input.length)

/-- Source `forward_propagation`: grow the mask store to the batch size, then in
training phase redraw each sample's mask row and write
`out = mask * scale * in` per unit; in inference phase copy the input
through unchanged. -/
def forward_propagation (l : dropout_layer) (draws : ℕ → ℕ → Bool)
    (input : List (List ℚ)) : dropout_layer × List (List ℚ) :=
  if l.phase = NetPhase.train then
    ({ l with mask := trainMask l draws input },
     (List.range input.length).map (fun sample =>
       (List.range (input.getD sample []).length).map (fun i =>
         (((trainMask l draws input).getD sample []).getD i 0 : ℚ) * l.scale
           * (input.getD sample []).getD i 0)))
  else ({ l with mask := growMask l.mask input.length }, input)

/-- Source `back_propagation`: overwrite `prev_delta[sample][i]` with
`mask_[sample][i] * curr_delta[sample][i]` for every sample and unit of the
`prev_delta` buffer (rectangular tensor: every row has the shape dimension
`shape()[1]`, here each row's own length). -/
def back_propagation (l : dropout_layer)
    (prev_delta0 curr_delta : List (List ℚ)) : List (List ℚ) :=
  (List.range prev_delta0.length).foldl
    (fun pd sample => pd.set sample
      ((List.range (prev_delta0.getD sample []).length).foldl
        (fun row i => row.set i
          (((l.mask.getD sample []).getD i 0 : ℚ)
            * (curr_delta.getD sample []).getD i 0))
        (pd.getD sample [])))
    prev_delta0

end dropout_layer

/-- Concrete fixture: the spec's two-connection topology
(connections (i=0,o=0,w=0) and (i=1,o=0,w=0), bias 0 -> output 0) on a
2-input, 1-output, 1-weight, 1-bias layer with scale factor 1. -/
def exLayer : PartialConnectedLayer :=
  (((PartialConnectedLayer.mkLayer 2 1 1 1 1).connect_weight 0 0 0).connect_weight
    1 0 0).connect_bias 0 0

/-- Concrete draw oracle: every Bernoulli trial returns true (mask bit 1). -/
def exDraws : ℕ → ℕ → Bool := fun _ _ => true

/-- Concrete dropout layer in training phase, rate 1/2, 2 inputs. -/
def exDrop : dropout_layer := dropout_layer.mkDropout 2 (1 / 2) NetPhase.train

/-- Concrete dropout layer in inference phase, rate 1/2, 2 inputs. -/
def exDropTest : dropout_layer := dropout_layer.mkDropout 2 (1 / 2) NetPhase.test

/-! ## Generic list lemmas -/

/-- Pointwise description of `List.set` through `List.getD`. -/
theorem getD_set_eq_if {α : Type} (l : List α) (j : ℕ) (v : α) (i : ℕ) (d : α) :
    (l.set j v).getD i d = if i = j ∧ j < l.length then v else l.getD i d := by
  rw [List.getD_eq_getElem?_getD, List.getD_eq_getElem?_getD, List.getElem?_set]
  by_cases hij : i = j
  · subst hij
    by_cases hlen : i < l.length
    · simp [hlen]
    · rw [List.getElem?_eq_none (Nat.le_of_not_lt hlen)]
      simp [hlen]
  · have : ¬ (j = i) := fun h => hij h.symm
    simp [this, hij]

/-- Value of `List.getD` on `List.replicate`. -/
theorem getD_replicate_eq_if {α : Type} (n : ℕ) (a : α) (i : ℕ) (d : α) :
    (List.replicate n a).getD i d = if i < n then a else d := by
  induction n generalizing i with
  | zero => simp
  | succ n ih =>
    cases i with
    | zero => simp [List.replicate]
    | succ i => simpa [List.replicate, Nat.succ_lt_succ_iff] using ih i

/-- A fold that writes each index once preserves the list length. -/
theorem foldl_set_preserves_length {α : Type} (F : ℕ → α → α) (d : α)
    (xs : List ℕ) (r : List α) :
    (xs.foldl (fun acc j => acc.set j (F j (acc.getD j d))) r).length = r.length := by
  induction xs generalizing r with
  | nil => rfl
  | cons x t ih => rw [List.foldl_cons, ih, List.length_set]

/-- Writing slot `j := F j (current slot j)` for every `j < n`, each slot once,
read pointwise: slot `i` ends as `F i (original slot i)` when `i < n` and is
untouched otherwise. -/
theorem foldl_range_set_getD {α : Type} (F : ℕ → α → α) (d : α) (n : ℕ)
    (r : List α) (hn : n ≤ r.length) (i : ℕ) :
    ((List.range n).foldl (fun acc j => acc.set j (F j (acc.getD j d))) r).getD i d
      = if i < n then F i (r.getD i d) else r.getD i d := by
  induction n generalizing i with
  | zero => simp
  | succ n ih =>
    have hn' : n ≤ r.length := Nat.le_of_succ_le hn
    rw [List.range_succ, List.foldl_append, List.foldl_cons, List.foldl_nil]
    have hRn : ((List.range n).foldl (fun acc j => acc.set j (F j (acc.getD j d))) r).getD n d
        = r.getD n d := by
      rw [ih hn' n]; simp
    have hRlen : ((List.range n).foldl (fun acc j => acc.set j (F j (acc.getD j d))) r).length
        = r.length := foldl_set_preserves_length F d _ r
    rw [getD_set_eq_if, hRn, hRlen]
    by_cases hin : i = n
    · subst hin
      have : i < r.length := Nat.lt_of_lt_of_le (Nat.lt_succ_self i) hn
      simp [this]
    · rw [if_neg (by simp [hin]), ih hn' i]
      by_cases hilt : i < n
      · rw [if_pos hilt, if_pos (Nat.lt_succ_of_lt hilt)]
      · rw [if_neg hilt, if_neg (by omega)]

/-- Folding `acc + g x` over a list is adding the list's mapped sum. -/
theorem foldl_add_eq_add_sum {α : Type} (g : α → ℚ) (xs : List α) (a : ℚ) :
    xs.foldl (fun acc x => acc + g x) a = a + (xs.map g).sum := by
  induction xs generalizing a with
  | nil => simp
  | cons x t ih =>
    rw [List.foldl_cons, ih, List.map_cons, List.sum_cons]
    ring

/-- A fold over an arbitrary step that preserves length preserves length. -/
theorem foldl_length_of_step {α β : Type} (f : List α → β → List α)
    (hf : ∀ r x, (f r x).length = r.length) (xs : List β) (r : List α) :
    (xs.foldl f r).length = r.length := by
  induction xs generalizing r with
  | nil => rfl
  | cons x t ih => rw [List.foldl_cons, ih, hf]

/-- Per-slot accumulation (`slot j += contrib s j` for every `j < nW`)
iterated over samples `s < nS` adds the per-sample contributions up. -/
theorem foldl_accum_getD (nW : ℕ) (contrib : ℕ → ℕ → ℚ) (nS : ℕ) (r0 : List ℚ)
    (h : nW ≤ r0.length) (w : ℕ) (hw : w < nW) :
    ((List.range nS).foldl
        (fun r s => (List.range nW).foldl
          (fun acc j => acc.set j (acc.getD j 0 + contrib s j)) r)
        r0).getD w 0
      = r0.getD w 0 + ((List.range nS).map (fun s => contrib s w)).sum := by
  induction nS with
  | zero => simp
  | succ n ih =>
    rw [List.range_succ, List.foldl_append, List.foldl_cons, List.foldl_nil]
    have hlenR : ((List.range n).foldl
        (fun r s => (List.range nW).foldl
          (fun acc j => acc.set j (acc.getD j 0 + contrib s j)) r)
        r0).length = r0.length := by
      refine foldl_length_of_step _ (fun r x => ?_) _ _
      exact foldl_set_preserves_length (fun j v => v + contrib x j) 0 _ r
    rw [foldl_range_set_getD (fun j v => v + contrib n j) 0 nW _ (hlenR ▸ h) w,
      if_pos hw, ih]
    simp [add_assoc]

namespace PartialConnectedLayer

/-- C1: for every sample `s` and output unit `o`, `forward_propagation`
overwrites `output[s][o]` with
`scale_factor * (sum over (w,i) in out2wi_[o] of W[w] * input[s][i])
 + b[out2bias_[o]]`, independently of the output buffer's prior content. -/
theorem forward_propagation_formula (l : PartialConnectedLayer)
    (W b : List ℚ) (input out0 : List (List ℚ)) (s o : ℕ)
    (hs : s < input.length) (hlen : input.length ≤ out0.length)
    (ho : o < l.out2wi.length)
    (hrow : l.out2wi.length ≤ (out0.getD s []).length) :
    ((l.forward_propagation W b input out0).getD s []).getD o 0
      = l.scale_factor *
          ((l.out2wi.getD o []).map
            (fun c => W.getD c.1 0 * (input.getD s []).getD c.2 0)).sum
        + b.getD (l.out2bias.getD o 0) 0 := by
  unfold forward_propagation
  rw [foldl_range_set_getD
      (fun sample row =>
        (List.range l.out2wi.length).foldl
          (fun row i => row.set i (forwardOut l W b (input.getD sample []) i))
          row)
      [] input.length out0 hlen s,
    if_pos hs]
  rw [foldl_range_set_getD
      (fun i _ => forwardOut l W b (input.getD s []) i)
      0 l.out2wi.length _ hrow o,
    if_pos ho]
  unfold forwardOut
  rw [foldl_add_eq_add_sum]
  ring

/-- A fold whose step acts componentwise on a triple is the triple of the
componentwise folds. -/
theorem foldl_prod3 {β γ δ : Type} (f : β → ℕ → β) (g : γ → ℕ → γ)
    (h : δ → ℕ → δ) (xs : List ℕ) (a : β) (b : γ) (c : δ) :
    xs.foldl (fun st j => (f st.1 j, g st.2.1 j, h st.2.2 j)) (a, b, c)
      = (xs.foldl f a, xs.foldl g b, xs.foldl h c) := by
  induction xs generalizing a b c with
  | nil => rfl
  | cons x t ih => rw [List.foldl_cons, List.foldl_cons, List.foldl_cons,
      List.foldl_cons, ih]

theorem back_propagation_eq_components (l : PartialConnectedLayer)
    (W : List ℚ) (prev_out curr_delta : List (List ℚ))
    (pd0 : List (List ℚ)) (dW0 db0 : List ℚ) :
    l.back_propagation W prev_out curr_delta (pd0, dW0, db0)
      = ((List.range prev_out.length).foldl (pdStep l W curr_delta) pd0,
         (List.range prev_out.length).foldl (dWStep l prev_out curr_delta) dW0,
         (List.range prev_out.length).foldl (dbStep l curr_delta) db0) :=
  foldl_prod3 (pdStep l W curr_delta) (dWStep l prev_out curr_delta)
    (dbStep l curr_delta) (List.range prev_out.length) pd0 dW0 db0

/-- C2: for every sample `s`, `back_propagation` (a) overwrites
`prev_delta[s][i]` with `scale_factor * (sum over (w,o) in in2wo_[i] of
W[w] * curr_delta[s][o])`; (b) adds to `dW[w]` the value `scale_factor *
(sum over samples of the sum over (i,o) in weight2io_[w] of
prev_out[s][i] * curr_delta[s][o])`; (c) adds to `db[k]` the sum over
samples of the sum of `curr_delta[s][o]` over `o` in `bias2out_[k]` — so
gradient buffers not zeroed by the caller keep accumulating across calls. -/
theorem back_propagation_formula (l : PartialConnectedLayer)
    (W : List ℚ) (prev_out curr_delta : List (List ℚ))
    (pd0 : List (List ℚ)) (dW0 db0 : List ℚ)
    (hpd : prev_out.length ≤ pd0.length)
    (hrows : ∀ s, s < prev_out.length → l.in2wo.length ≤ (pd0.getD s []).length)
    (hdW : l.weight2io.length ≤ dW0.length)
    (hdb : l.bias2out.length ≤ db0.length) :
    (∀ s i, s < prev_out.length → i < l.in2wo.length →
      (((l.back_propagation W prev_out curr_delta (pd0, dW0, db0)).1.getD s []).getD i 0
        = l.scale_factor *
            ((l.in2wo.getD i []).map
              (fun c => W.getD c.1 0 * (curr_delta.getD s []).getD c.2 0)).sum))
    ∧ (∀ w, w < l.weight2io.length →
      ((l.back_propagation W prev_out curr_delta (pd0, dW0, db0)).2.1.getD w 0
        = dW0.getD w 0 + l.scale_factor *
            ((List.range prev_out.length).map (fun s =>
              ((l.weight2io.getD w []).map
                (fun c => (prev_out.getD s []).getD c.1 0
                  * (curr_delta.getD s []).getD c.2 0)).sum)).sum))
    ∧ (∀ k, k < l.bias2out.length →
      ((l.back_propagation W prev_out curr_delta (pd0, dW0, db0)).2.2.getD k 0
        = db0.getD k 0 +
            ((List.range prev_out.length).map (fun s =>
              ((l.bias2out.getD k []).map
                (fun o => (curr_delta.getD s []).getD o 0)).sum)).sum)) := by
  rw [back_propagation_eq_components]
  refine ⟨fun s i hs hi => ?_, fun w hw => ?_, fun k hk => ?_⟩
  · have hstep : pdStep l W curr_delta
        = fun pd sample => pd.set sample
            ((fun sample row => (List.range l.in2wo.length).foldl
                (fun row i => row.set i (pdVal l W curr_delta sample i)) row)
              sample (pd.getD sample [])) := rfl
    rw [hstep,
      foldl_range_set_getD
        (fun sample row => (List.range l.in2wo.length).foldl
          (fun row i => row.set i (pdVal l W curr_delta sample i)) row)
        [] prev_out.length pd0 hpd s,
      if_pos hs,
      foldl_range_set_getD (fun i _ => pdVal l W curr_delta s i) 0
        l.in2wo.length _ (hrows s hs) i,
      if_pos hi]
    unfold pdVal
    rw [foldl_add_eq_add_sum]
    ring
  · have hstep : dWStep l prev_out curr_delta
        = fun r s => (List.range l.weight2io.length).foldl
            (fun acc j => acc.set j (acc.getD j 0
              + dWDiff l prev_out curr_delta s j * l.scale_factor)) r := rfl
    rw [hstep,
      foldl_accum_getD l.weight2io.length
        (fun s j => dWDiff l prev_out curr_delta s j * l.scale_factor)
        prev_out.length dW0 hdW w hw]
    congr 1
    unfold dWDiff
    rw [mul_comm l.scale_factor, ← List.sum_map_mul_right]
    refine congrArg List.sum (List.map_congr_left fun s _ => ?_)
    rw [foldl_add_eq_add_sum, zero_add]
  · have hstep : dbStep l curr_delta
        = fun r s => (List.range l.bias2out.length).foldl
            (fun acc j => acc.set j (acc.getD j 0 + dbDiff l curr_delta s j)) r := rfl
    rw [hstep,
      foldl_accum_getD l.bias2out.length (dbDiff l curr_delta)
        prev_out.length db0 hdb k hk]
    congr 1
    unfold dbDiff
    refine congrArg List.sum (List.map_congr_left fun s _ => ?_)
    rw [foldl_add_eq_add_sum, zero_add]

theorem foldl_count_nonempty {α : Type} (xs : List (List α)) (t : ℕ) :
    xs.foldl (fun t w => if 0 < w.length then t + 1 else t) t
      = t + xs.countP (fun w => decide (0 < w.length)) := by
  induction xs generalizing t with
  | nil => simp
  | cons x s ih =>
    rw [List.foldl_cons, ih]
    by_cases h : 0 < x.length <;> simp [List.countP_cons, h] <;> omega

/-- C9: `param_size` is the number of weight-ids with a non-empty
`weight2io_` list plus the number of bias-ids with a non-empty `bias2out_`
list; ids with no registered connection are not counted. -/
theorem param_size_eq_counts (l : PartialConnectedLayer) :
    l.param_size
      = l.weight2io.countP (fun w => decide (0 < w.length))
        + l.bias2out.countP (fun b => decide (0 < b.length)) := by
  unfold param_size
  rw [foldl_count_nonempty l.bias2out, foldl_count_nonempty l.weight2io]
  omega

theorem foldl_max_init_le {α : Type} (v : List (List α)) (a : ℕ) :
    a ≤ v.foldl (fun m x => max m x.length) a := by
  induction v generalizing a with
  | nil => exact Nat.le_refl a
  | cons y t ih =>
    rw [List.foldl_cons]
    exact Nat.le_trans (Nat.le_max_left a y.length) (ih (max a y.length))

theorem length_le_max_size {α : Type} (v : List (List α)) (x : List α)
    (hx : x ∈ v) : x.length ≤ max_size v := by
  unfold max_size
  generalize 0 = a
  induction v generalizing a with
  | nil => cases hx
  | cons y t ih =>
    rw [List.foldl_cons]
    rcases List.mem_cons.mp hx with h | h
    · subst h
      exact Nat.le_trans (Nat.le_max_right a x.length) (foldl_max_init_le t _)
    · exact ih h _

theorem max_size_eq_zero_or_mem {α : Type} (v : List (List α)) :
    max_size v = 0 ∨ ∃ x ∈ v, max_size v = x.length := by
  unfold max_size
  generalize 0 = a
  induction v generalizing a with
  | nil => exact Or.inl rfl
  | cons y t ih =>
    rw [List.foldl_cons]
    rcases ih (max a y.length) with h | ⟨x, hx, hfx⟩
    · rcases max_choice a y.length with hm | hm
      · exact Or.inl (by rw [h, hm])
      · exact Or.inr ⟨y, List.mem_cons_self y t, by rw [h, hm]⟩
    · exact Or.inr ⟨x, List.mem_cons_of_mem y hx, hfx⟩

theorem max_size_spec {α : Type} (v : List (List α)) :
    (∀ j, j < v.length → (v.getD j []).length ≤ max_size v)
    ∧ (v ≠ [] → ∃ j, j < v.length ∧ (v.getD j []).length = max_size v) := by
  constructor
  · intro j hj
    rw [List.getD_eq_getElem v [] hj]
    exact length_le_max_size v _ (List.getElem_mem hj)
  · intro hv
    rcases max_size_eq_zero_or_mem v with h0 | ⟨x, hx, hfx⟩
    · refine ⟨0, List.length_pos.mpr hv, ?_⟩
      have hle : (v.getD 0 []).length ≤ max_size v := by
        rw [List.getD_eq_getElem v [] (List.length_pos.mpr hv)]
        exact length_le_max_size v _ (List.getElem_mem _)
      omega
    · rcases List.mem_iff_getElem.mp hx with ⟨j, hj, hgx⟩
      exact ⟨j, hj, by rw [List.getD_eq_getElem v [] hj, hgx, hfx]⟩

/-- C8: `fan_in_size` is the maximum adjacency-list length over `out2wi_`
(every list is no longer, and some list attains it when there is any
output unit); `fan_out_size` likewise over `in2wo_`. -/
theorem fan_sizes_are_max_list_lengths (l : PartialConnectedLayer) :
    (∀ o, o < l.out2wi.length → (l.out2wi.getD o []).length ≤ l.fan_in_size)
    ∧ (l.out2wi ≠ [] →
        ∃ o, o < l.out2wi.length ∧ (l.out2wi.getD o []).length = l.fan_in_size)
    ∧ (∀ i, i < l.in2wo.length → (l.in2wo.getD i []).length ≤ l.fan_out_size)
    ∧ (l.in2wo ≠ [] →
        ∃ i, i < l.in2wo.length ∧ (l.in2wo.getD i []).length = l.fan_out_size) :=
  ⟨(max_size_spec l.out2wi).1, (max_size_spec l.out2wi).2,
   (max_size_spec l.in2wo).1, (max_size_spec l.in2wo).2⟩

/-- Appending one element to the list at slot `j` raises the count of `a`
at slot `k` by one exactly when `k = j` and the appended element is `a`. -/
theorem count_getD_set_append {α : Type} [BEq α] [LawfulBEq α] [DecidableEq α]
    (v : List (List α)) (j : ℕ) (hj : j < v.length) (x a : α) (k : ℕ) :
    ((v.set j (v.getD j [] ++ [x])).getD k []).count a
      = (v.getD k []).count a + if k = j ∧ x = a then 1 else 0 := by
  rw [getD_set_eq_if]
  by_cases hkj : k = j
  · subst hkj
    rw [if_pos ⟨rfl, hj⟩, List.count_append, List.count_singleton]
    by_cases hxa : x = a
    · subst hxa
      simp
    · rw [beq_false_of_ne hxa]
      simp [hxa]
  · rw [if_neg (fun h => hkj h.1), if_neg (fun h => hkj h.1)]
    simp

theorem connect_weight_consistent (l : PartialConnectedLayer)
    (hl : TripleCountConsistent l) (i' o' w' : ℕ)
    (hi : i' < l.in2wo.length) (ho : o' < l.out2wi.length)
    (hw : w' < l.weight2io.length) :
    TripleCountConsistent (l.connect_weight i' o' w') := by
  intro i o w
  rcases hl i o w with ⟨h1, h2⟩
  constructor
  · show ((l.weight2io.set w'
        (l.weight2io.getD w' [] ++ [(i', o')])).getD w []).count (i, o)
      = ((l.out2wi.set o'
          (l.out2wi.getD o' [] ++ [(w', i')])).getD o []).count (w, i)
    rw [count_getD_set_append l.weight2io w' hw (i', o') (i, o) w,
      count_getD_set_append l.out2wi o' ho (w', i') (w, i) o, h1]
    congr 1
    simp only [Prod.mk.injEq]
    split_ifs <;> omega
  · show ((l.weight2io.set w'
        (l.weight2io.getD w' [] ++ [(i', o')])).getD w []).count (i, o)
      = ((l.in2wo.set i'
          (l.in2wo.getD i' [] ++ [(w', o')])).getD i []).count (w, o)
    rw [count_getD_set_append l.weight2io w' hw (i', o') (i, o) w,
      count_getD_set_append l.in2wo i' hi (w', o') (w, o) i, h2]
    congr 1
    simp only [Prod.mk.injEq]
    split_ifs <;> omega

theorem connect_weight_dims (l : PartialConnectedLayer) (i o w : ℕ) :
    (l.connect_weight i o w).weight2io.length = l.weight2io.length
    ∧ (l.connect_weight i o w).out2wi.length = l.out2wi.length
    ∧ (l.connect_weight i o w).in2wo.length = l.in2wo.length := by
  refine ⟨?_, ?_, ?_⟩ <;> simp [connect_weight]

theorem applyConnectWeights_consistent (l : PartialConnectedLayer)
    (hl : TripleCountConsistent l) (calls : List (ℕ × ℕ × ℕ))
    (hcalls : ∀ c ∈ calls,
      c.1 < l.in2wo.length ∧ c.2.1 < l.out2wi.length
        ∧ c.2.2 < l.weight2io.length) :
    TripleCountConsistent (applyConnectWeights l calls) := by
  induction calls generalizing l with
  | nil => exact hl
  | cons c cs ih =>
    have hc := hcalls c (List.mem_cons_self c cs)
    refine ih (l.connect_weight c.1 c.2.1 c.2.2)
      (connect_weight_consistent l hl c.1 c.2.1 c.2.2 hc.1 hc.2.1 hc.2.2)
      (fun c' hc' => ?_)
    rcases connect_weight_dims l c.1 c.2.1 c.2.2 with ⟨d1, d2, d3⟩
    rw [d1, d2, d3]
    exact hcalls c' (List.mem_cons_of_mem c hc')

/-- C7: after any sequence of in-range `connect_weight` calls on a freshly
constructed layer, every triple `(i, o, w)` occurs equally often as `(i,o)`
in `weight2io_[w]`, as `(w,i)` in `out2wi_[o]` and as `(w,o)` in
`in2wo_[i]`. -/
theorem connect_weight_tables_consistent
    (in_dim out_dim weight_dim bias_dim : ℕ) (scale : ℚ)
    (calls : List (ℕ × ℕ × ℕ))
    (hcalls : ∀ c ∈ calls, c.1 < in_dim ∧ c.2.1 < out_dim ∧ c.2.2 < weight_dim)
    (i o w : ℕ) :
    (((applyConnectWeights (mkLayer in_dim out_dim weight_dim bias_dim scale)
        calls).weight2io.getD w []).count (i, o)
      = ((applyConnectWeights (mkLayer in_dim out_dim weight_dim bias_dim scale)
          calls).out2wi.getD o []).count (w, i))
    ∧ (((applyConnectWeights (mkLayer in_dim out_dim weight_dim bias_dim scale)
        calls).weight2io.getD w []).count (i, o)
      = ((applyConnectWeights (mkLayer in_dim out_dim weight_dim bias_dim scale)
          calls).in2wo.getD i []).count (w, o)) := by
  have h0 : TripleCountConsistent (mkLayer in_dim out_dim weight_dim bias_dim scale) := by
    intro i o w
    constructor <;> simp [mkLayer, getD_replicate_eq_if, ite_self]
  exact applyConnectWeights_consistent _ h0 calls
    (by simpa [mkLayer] using hcalls) i o w

theorem connect_bias_dims (l : PartialConnectedLayer) (b o : ℕ) :
    (l.connect_bias b o).bias2out.length = l.bias2out.length
    ∧ (l.connect_bias b o).out2bias.length = l.out2bias.length := by
  constructor <;> simp [connect_bias]

/-- C10: after any sequence of in-range `connect_bias` calls,
`out2bias_[o]` holds the bias-id of the most recent call naming `o`
(or its initial value if none), while `bias2out_[k]` keeps one occurrence
of `o` for every call `(k, o)` ever made. -/
theorem connect_bias_views (l : PartialConnectedLayer)
    (calls : List (ℕ × ℕ))
    (hcalls : ∀ c ∈ calls, c.1 < l.bias2out.length ∧ c.2 < l.out2bias.length) :
    (∀ o, o < l.out2bias.length →
      (applyConnectBiases l calls).out2bias.getD o 0
        = (lastBiasFor calls o).getD (l.out2bias.getD o 0))
    ∧ (∀ k o, k < l.bias2out.length →
      ((applyConnectBiases l calls).bias2out.getD k []).count o
        = (l.bias2out.getD k []).count o + calls.count (k, o)) := by
  induction calls generalizing l with
  | nil => exact ⟨fun o _ => rfl, fun k o _ => by simp [applyConnectBiases]⟩
  | cons c cs ih =>
    have hc := hcalls c (List.mem_cons_self c cs)
    rcases connect_bias_dims l c.1 c.2 with ⟨d1, d2⟩
    have hrest : ∀ c' ∈ cs, c'.1 < (l.connect_bias c.1 c.2).bias2out.length
        ∧ c'.2 < (l.connect_bias c.1 c.2).out2bias.length := by
      intro c' hc'
      rw [d1, d2]
      exact hcalls c' (List.mem_cons_of_mem c hc')
    rcases ih (l.connect_bias c.1 c.2) hrest with ⟨iha, ihb⟩
    constructor
    · intro o hoo
      have step : applyConnectBiases l (c :: cs)
          = applyConnectBiases (l.connect_bias c.1 c.2) cs := rfl
      rw [step, iha o (d2 ▸ hoo)]
      have hinner : (l.connect_bias c.1 c.2).out2bias.getD o 0
          = if o = c.2 ∧ c.2 < l.out2bias.length then c.1
            else l.out2bias.getD o 0 :=
        getD_set_eq_if l.out2bias c.2 c.1 o 0
      rw [hinner]
      unfold lastBiasFor
      rw [List.reverse_cons, List.find?_append]
      cases hfind : cs.reverse.find? (fun p => p.2 == o) with
      | none =>
        rw [Option.none_or]
        by_cases hco : c.2 = o
        · subst hco
          rw [List.find?_cons_of_pos [] (by simp)]
          simp [hc.2]
        · rw [List.find?_cons_of_neg [] (by simp [beq_false_of_ne hco])]
          have ho2 : ¬ (o = c.2) := fun h => hco (Eq.symm h)
          simp [ho2]
      | some x =>
        rfl
    · intro k o hk
      have step : applyConnectBiases l (c :: cs)
          = applyConnectBiases (l.connect_bias c.1 c.2) cs := rfl
      rw [step, ihb k o (d1 ▸ hk)]
      have hinner : (l.connect_bias c.1 c.2).bias2out.getD k []
          = if k = c.1 ∧ c.1 < l.bias2out.length
            then l.bias2out.getD c.1 [] ++ [c.2]
            else l.bias2out.getD k [] :=
        getD_set_eq_if l.bias2out c.1 _ k []
      rw [hinner, List.count_cons]
      by_cases hkc : k = c.1
      · subst hkc
        rw [if_pos ⟨rfl, hc.1⟩, List.count_append, List.count_singleton]
        by_cases hco : c.2 = o
        · subst hco
          have hcc : (c == (c.1, c.2)) = true := by simp
          rw [hcc]
          simp
          omega
        · rw [beq_false_of_ne hco,
            beq_false_of_ne (fun h => hco (congrArg Prod.snd h))]
          simp
      · rw [if_neg (fun h => hkc h.1),
          beq_false_of_ne (fun h => hkc (congrArg Prod.fst h).symm)]
        simp


/-- Witness for C1 at the spec's concrete topology: weight 2, input [3,5],
bias 1, scale 1 give output 17; a layer with no connections returns the
bias alone. -/
theorem forward_propagation_formula_witness :
    ((0 : ℕ) < ([[(3 : ℚ), 5]] : List (List ℚ)).length)
    ∧ (((exLayer.forward_propagation [2] [1] [[3, 5]] [[0]]).getD 0 []).getD 0 0
        = exLayer.scale_factor *
            ((exLayer.out2wi.getD 0 []).map
              (fun c => ([(2 : ℚ)]).getD c.1 0
                * (([[(3 : ℚ), 5]] : List (List ℚ)).getD 0 []).getD c.2 0)).sum
          + ([(1 : ℚ)]).getD (exLayer.out2bias.getD 0 0) 0)
    ∧ (((exLayer.forward_propagation [2] [1] [[3, 5]] [[0]]).getD 0 []).getD 0 0
        = 17)
    ∧ ((((PartialConnectedLayer.mkLayer 2 1 1 1 1).forward_propagation
          [2] [1] [[3, 5]] [[0]]).getD 0 []).getD 0 0 = 1) :=
  ⟨by decide,
   forward_propagation_formula exLayer [2] [1] [[3, 5]] [[0]] 0 0
     (by decide) (by decide) (by decide) (by decide),
   by
     simp [exLayer, forward_propagation, forwardOut, mkLayer, connect_weight,
       connect_bias, List.range_succ]
     norm_num,
   by
     simp [forward_propagation, forwardOut, mkLayer, List.range_succ]⟩

/-- Witness for C2 at the same topology: one sample, curr_delta [1],
prev_out [3,5]; also checks the spec's numbers prev_delta = [2,2],
dW = [8], db = [1]. -/
theorem back_propagation_formula_witness :
    (([[(3 : ℚ), 5]] : List (List ℚ)).length
        ≤ ([[(0 : ℚ), 0]] : List (List ℚ)).length)
    ∧ ((((exLayer.back_propagation [2] [[3, 5]] [[1]]
          ([[0, 0]], [0], [0])).1.getD 0 []).getD 0 0
        = exLayer.scale_factor *
            ((exLayer.in2wo.getD 0 []).map
              (fun c => ([(2 : ℚ)]).getD c.1 0
                * (([[(1 : ℚ)]] : List (List ℚ)).getD 0 []).getD c.2 0)).sum)
      ∧ ((exLayer.back_propagation [2] [[3, 5]] [[1]]
          ([[0, 0]], [0], [0])).2.1.getD 0 0
        = ([(0 : ℚ)]).getD 0 0 + exLayer.scale_factor *
            ((List.range ([[(3 : ℚ), 5]] : List (List ℚ)).length).map (fun s =>
              ((exLayer.weight2io.getD 0 []).map
                (fun c => (([[(3 : ℚ), 5]] : List (List ℚ)).getD s []).getD c.1 0
                  * (([[(1 : ℚ)]] : List (List ℚ)).getD s []).getD c.2 0)).sum)).sum)
      ∧ ((exLayer.back_propagation [2] [[3, 5]] [[1]]
          ([[0, 0]], [0], [0])).2.2.getD 0 0
        = ([(0 : ℚ)]).getD 0 0 +
            ((List.range ([[(3 : ℚ), 5]] : List (List ℚ)).length).map (fun s =>
              ((exLayer.bias2out.getD 0 []).map
                (fun o => (([[(1 : ℚ)]] : List (List ℚ)).getD s []).getD o 0)).sum)).sum))
    ∧ (exLayer.back_propagation [2] [[3, 5]] [[1]] ([[0, 0]], [0], [0])
        = ([[2, 2]], [8], [1])) :=
  ⟨by decide,
   ⟨(back_propagation_formula exLayer [2] [[3, 5]] [[1]] [[0, 0]] [0] [0]
       (by decide) (by decide) (by decide) (by decide)).1 0 0 (by decide) (by decide),
    (back_propagation_formula exLayer [2] [[3, 5]] [[1]] [[0, 0]] [0] [0]
       (by decide) (by decide) (by decide) (by decide)).2.1 0 (by decide),
    (back_propagation_formula exLayer [2] [[3, 5]] [[1]] [[0, 0]] [0] [0]
       (by decide) (by decide) (by decide) (by decide)).2.2 0 (by decide)⟩,
   by
     simp [exLayer, back_propagation, pdStep, dWStep, dbStep, pdVal, dWDiff,
       dbDiff, mkLayer, connect_weight, connect_bias, List.range_succ]
     norm_num⟩

/-- Witness for C8 on the concrete two-connection layer. -/
theorem fan_sizes_are_max_list_lengths_witness :
    ((0 : ℕ) < exLayer.out2wi.length
      ∧ (exLayer.out2wi.getD 0 []).length ≤ exLayer.fan_in_size)
    ∧ (exLayer.out2wi ≠ []
      ∧ ∃ o, o < exLayer.out2wi.length
          ∧ (exLayer.out2wi.getD o []).length = exLayer.fan_in_size)
    ∧ ((0 : ℕ) < exLayer.in2wo.length
      ∧ (exLayer.in2wo.getD 0 []).length ≤ exLayer.fan_out_size)
    ∧ (exLayer.in2wo ≠ []
      ∧ ∃ i, i < exLayer.in2wo.length
          ∧ (exLayer.in2wo.getD i []).length = exLayer.fan_out_size) :=
  ⟨⟨by decide, (fan_sizes_are_max_list_lengths exLayer).1 0 (by decide)⟩,
   ⟨by decide, (fan_sizes_are_max_list_lengths exLayer).2.1 (by decide)⟩,
   ⟨by decide, (fan_sizes_are_max_list_lengths exLayer).2.2.1 0 (by decide)⟩,
   ⟨by decide, (fan_sizes_are_max_list_lengths exLayer).2.2.2 (by decide)⟩⟩

/-- Witness for C7: the spec's two registrations on a fresh layer. -/
theorem connect_weight_tables_consistent_witness :
    (∀ c ∈ [((0 : ℕ), (0 : ℕ), (0 : ℕ)), (1, 0, 0)],
      c.1 < 2 ∧ c.2.1 < 1 ∧ c.2.2 < 1)
    ∧ ((((applyConnectWeights (mkLayer 2 1 1 1 1)
          [(0, 0, 0), (1, 0, 0)]).weight2io.getD 0 []).count (0, 0)
        = ((applyConnectWeights (mkLayer 2 1 1 1 1)
            [(0, 0, 0), (1, 0, 0)]).out2wi.getD 0 []).count (0, 0))
      ∧ (((applyConnectWeights (mkLayer 2 1 1 1 1)
          [(0, 0, 0), (1, 0, 0)]).weight2io.getD 0 []).count (0, 0)
        = ((applyConnectWeights (mkLayer 2 1 1 1 1)
            [(0, 0, 0), (1, 0, 0)]).in2wo.getD 0 []).count (0, 0))) :=
  ⟨by decide,
   connect_weight_tables_consistent 2 1 1 1 1 [(0, 0, 0), (1, 0, 0)]
     (by decide) 0 0 0⟩

/-- Witness for C10: a single registration (bias 0, output 0). -/
theorem connect_bias_views_witness :
    (∀ c ∈ [((0 : ℕ), (0 : ℕ))],
      c.1 < (mkLayer 1 1 1 1 1).bias2out.length
        ∧ c.2 < (mkLayer 1 1 1 1 1).out2bias.length)
    ∧ ((applyConnectBiases (mkLayer 1 1 1 1 1) [(0, 0)]).out2bias.getD 0 0
        = (lastBiasFor [(0, 0)] 0).getD ((mkLayer 1 1 1 1 1).out2bias.getD 0 0))
    ∧ (((applyConnectBiases (mkLayer 1 1 1 1 1) [(0, 0)]).bias2out.getD 0 []).count 0
        = ((mkLayer 1 1 1 1 1).bias2out.getD 0 []).count 0
          + List.count ((0 : ℕ), (0 : ℕ)) [((0 : ℕ), (0 : ℕ))]) :=
  ⟨by decide,
   (connect_bias_views (mkLayer 1 1 1 1 1) [(0, 0)] (by decide)).1 0 (by decide),
   (connect_bias_views (mkLayer 1 1 1 1 1) [(0, 0)] (by decide)).2 0 0 (by decide)⟩


end PartialConnectedLayer

namespace dropout_layer

theorem growMask_length (mask : List (List ℕ)) (n : ℕ) :
    (growMask mask n).length = max mask.length n := by
  unfold growMask
  split_ifs with h <;> simp <;> omega

theorem growMask_getD_lt (mask : List (List ℕ)) (n : ℕ) (s : ℕ)
    (hs : s < mask.length) :
    (growMask mask n).getD s [] = mask.getD s [] := by
  unfold growMask
  split_ifs with h
  · exact List.getD_append _ _ _ _ hs
  · rfl

theorem growMask_getD_ge (mask : List (List ℕ)) (n : ℕ) (s : ℕ)
    (h : mask.length < n) (hs1 : mask.length ≤ s) (hs2 : s < n) :
    (growMask mask n).getD s [] = mask.getD 0 [] := by
  unfold growMask
  rw [if_pos h, List.getD_eq_getElem?_getD, List.getElem?_append_right hs1]
  rw [← List.getD_eq_getElem?_getD, getD_replicate_eq_if]
  rw [if_pos (by omega)]

theorem growMask_row_length (mask : List (List ℕ)) (n : ℕ) (d : ℕ)
    (hmask : ∀ r ∈ mask, r.length = d) (hne : mask ≠ []) (s : ℕ)
    (hs : s < (growMask mask n).length) :
    ((growMask mask n).getD s []).length = d := by
  have hpos : 0 < mask.length := List.length_pos.mpr hne
  have h0 : (mask.getD 0 []).length = d := by
    rw [List.getD_eq_getElem mask [] hpos]
    exact hmask _ (List.getElem_mem hpos)
  by_cases hsm : s < mask.length
  · rw [growMask_getD_lt mask n s hsm, List.getD_eq_getElem mask [] hsm]
    exact hmask _ (List.getElem_mem hsm)
  · rw [growMask_length] at hs
    have hlt : mask.length < n := by omega
    rw [growMask_getD_ge mask n s hlt (by omega) (by omega)]
    exact h0

theorem trainMask_length (l : dropout_layer) (draws : ℕ → ℕ → Bool)
    (input : List (List ℚ)) :
    (trainMask l draws input).length = max l.mask.length input.length := by
  unfold trainMask
  have h := foldl_length_of_step
    (fun m sample => m.set sample
      ((List.range (input.getD sample []).length).foldl
        (fun row i => row.set i (if draws sample i then 1 else 0))
        (m.getD sample [])))
    (fun r x => List.length_set _ _ _)
    (List.range input.length) (growMask l.mask input.length)
  rw [h]
  exact growMask_length l.mask input.length

theorem trainMask_bit (l : dropout_layer) (draws : ℕ → ℕ → Bool)
    (input : List (List ℚ))
    (hmask : ∀ r ∈ l.mask, r.length = l.in_size) (hne : l.mask ≠ [])
    (hin : ∀ r ∈ input, r.length = l.in_size) (s i : ℕ)
    (hs : s < input.length) (hi : i < (input.getD s []).length) :
    ((trainMask l draws input).getD s []).getD i 0
      = if draws s i then 1 else 0 := by
  unfold trainMask
  have hglen : input.length ≤ (growMask l.mask input.length).length := by
    rw [growMask_length]
    omega
  rw [foldl_range_set_getD
      (fun sample row => (List.range (input.getD sample []).length).foldl
        (fun row i => row.set i (if draws sample i then 1 else 0)) row)
      [] input.length _ hglen s,
    if_pos hs]
  have hrowlen : (input.getD s []).length
      ≤ ((growMask l.mask input.length).getD s []).length := by
    rw [growMask_row_length l.mask input.length l.in_size hmask hne s
      (by omega)]
    rw [List.getD_eq_getElem input [] hs]
    exact Nat.le_of_eq (hin _ (List.getElem_mem hs))
  rw [foldl_range_set_getD (fun i _ => if draws s i then 1 else 0) 0
      (input.getD s []).length _ hrowlen i,
    if_pos hi]

theorem forward_mask_train (l : dropout_layer) (draws : ℕ → ℕ → Bool)
    (input : List (List ℚ)) (hphase : l.phase = NetPhase.train) :
    (l.forward_propagation draws input).1.mask = trainMask l draws input := by
  unfold forward_propagation
  rw [if_pos hphase]

theorem map_range_getD {α : Type} (f : ℕ → α) (n : ℕ) (d : α) (i : ℕ)
    (hi : i < n) :
    ((List.range n).map f).getD i d = f i := by
  rw [List.getD_eq_getElem _ _ (by simpa using hi)]
  simp

/-- C3: in training phase, every output unit is `scale * input` when its
fresh per-unit draw keeps it and exactly 0 when the draw drops it
(mask bit 0); in particular every output is either 0 or
`input * 1/(1-p)`. -/
theorem forward_train_gates (l : dropout_layer) (draws : ℕ → ℕ → Bool)
    (input : List (List ℚ)) (s i : ℕ)
    (hphase : l.phase = NetPhase.train)
    (hp0 : 0 < l.dropout_rate) (hp1 : l.dropout_rate < 1)
    (hscale : l.scale = 1 / (1 - l.dropout_rate))
    (hmask : ∀ r ∈ l.mask, r.length = l.in_size) (hne : l.mask ≠ [])
    (hin : ∀ r ∈ input, r.length = l.in_size)
    (hs : s < input.length) (hi : i < (input.getD s []).length) :
    (((l.forward_propagation draws input).2.getD s []).getD i 0
      = if draws s i
        then 1 / (1 - l.dropout_rate) * (input.getD s []).getD i 0
        else 0)
    ∧ ((((l.forward_propagation draws input).2.getD s []).getD i 0 = 0)
      ∨ (((l.forward_propagation draws input).2.getD s []).getD i 0
          = 1 / (1 - l.dropout_rate) * (input.getD s []).getD i 0)) := by
  have hout : ((l.forward_propagation draws input).2.getD s []).getD i 0
      = if draws s i
        then 1 / (1 - l.dropout_rate) * (input.getD s []).getD i 0
        else 0 := by
    unfold forward_propagation
    rw [if_pos hphase]
    show ((((List.range input.length).map _).getD s []).getD i 0) = _
    rw [map_range_getD _ input.length [] s hs,
      map_range_getD _ (input.getD s []).length 0 i hi,
      trainMask_bit l draws input hmask hne hin s i hs hi, hscale]
    by_cases hd : draws s i
    · rw [if_pos hd, if_pos hd]
      push_cast
      ring
    · rw [if_neg hd, if_neg hd]
      push_cast
      ring
  refine ⟨hout, ?_⟩
  rw [hout]
  by_cases hd : draws s i
  · rw [if_pos hd]
    exact Or.inr rfl
  · rw [if_neg hd]
    exact Or.inl rfl

/-- C4: `back_propagation` writes
`prev_delta[s][i] = mask_[s][i] * curr_delta[s][i]` from the stored mask;
composed with a training forward call it replays exactly the mask that
call stored (the bit of draw `(s,i)`), and the backward call never writes
the mask. -/
theorem back_propagation_uses_stored_mask (l : dropout_layer)
    (draws : ℕ → ℕ → Bool) (input prev_delta0 curr_delta : List (List ℚ))
    (s i : ℕ)
    (hs : s < prev_delta0.length) (hi : i < (prev_delta0.getD s []).length)
    (hphase : l.phase = NetPhase.train)
    (hmask : ∀ r ∈ l.mask, r.length = l.in_size) (hne : l.mask ≠ [])
    (hin : ∀ r ∈ input, r.length = l.in_size)
    (hs2 : s < input.length) (hi2 : i < (input.getD s []).length) :
    (((l.back_propagation prev_delta0 curr_delta).getD s []).getD i 0
      = ((l.mask.getD s []).getD i 0 : ℚ) * (curr_delta.getD s []).getD i 0)
    ∧ ((((l.forward_propagation draws input).1.back_propagation
          prev_delta0 curr_delta).getD s []).getD i 0
      = (if draws s i then (1 : ℚ) else 0)
          * (curr_delta.getD s []).getD i 0) := by
  have hgen : ∀ (l' : dropout_layer),
      ((l'.back_propagation prev_delta0 curr_delta).getD s []).getD i 0
        = ((l'.mask.getD s []).getD i 0 : ℚ)
            * (curr_delta.getD s []).getD i 0 := by
    intro l'
    unfold back_propagation
    rw [foldl_range_set_getD
        (fun sample row => (List.range (prev_delta0.getD sample []).length).foldl
          (fun row i => row.set i (((l'.mask.getD sample []).getD i 0 : ℚ)
            * (curr_delta.getD sample []).getD i 0)) row)
        [] prev_delta0.length prev_delta0 (Nat.le_refl _) s,
      if_pos hs,
      foldl_range_set_getD
        (fun i _ => ((l'.mask.getD s []).getD i 0 : ℚ)
          * (curr_delta.getD s []).getD i 0)
        0 (prev_delta0.getD s []).length _ (Nat.le_refl _) i,
      if_pos hi]
  refine ⟨hgen l, ?_⟩
  rw [hgen _, forward_mask_train l draws input hphase,
    trainMask_bit l draws input hmask hne hin s i hs2 hi2]
  by_cases hd : draws s i
  · rw [if_pos hd, if_pos hd]
    norm_num
  · rw [if_neg hd, if_neg hd]
    norm_num

/-- C5: in inference phase the forward call returns the input unchanged,
preserves every stored mask row, and consumes no Bernoulli draws (the
result does not depend on the draw oracle). -/
theorem forward_inference_identity (l : dropout_layer)
    (draws : ℕ → ℕ → Bool) (input : List (List ℚ))
    (hphase : l.phase = NetPhase.test)
    (hp0 : 0 < l.dropout_rate) (hp1 : l.dropout_rate < 1) :
    ((l.forward_propagation draws input).2 = input)
    ∧ (∀ s, s < l.mask.length →
        (l.forward_propagation draws input).1.mask.getD s []
          = l.mask.getD s [])
    ∧ (∀ draws2 : ℕ → ℕ → Bool,
        l.forward_propagation draws input
          = l.forward_propagation draws2 input) := by
  have hnt : ¬ (l.phase = NetPhase.train) := by
    rw [hphase]
    intro h
    cases h
  refine ⟨?_, fun s hs => ?_, fun draws2 => ?_⟩
  · unfold forward_propagation
    rw [if_neg hnt]
  · show (l.forward_propagation draws input).1.mask.getD s [] = _
    unfold forward_propagation
    rw [if_neg hnt]
    exact growMask_getD_lt l.mask input.length s hs
  · unfold forward_propagation
    rw [if_neg hnt, if_neg hnt]

theorem forward_mask_length (l : dropout_layer) (draws : ℕ → ℕ → Bool)
    (input : List (List ℚ)) :
    (l.forward_propagation draws input).1.mask.length
      = max l.mask.length input.length := by
  unfold forward_propagation
  split_ifs with h
  · exact trainMask_length l draws input
  · exact growMask_length l.mask input.length

/-- C6: when the batch is larger than the stored mask, the growth step
extends the store to exactly the batch size, keeps every previously stored
row unchanged at its index, fills each new row with a copy of the first
row, and after any forward call the mask store never shrinks. -/
theorem mask_store_growth (l : dropout_layer) (draws : ℕ → ℕ → Bool)
    (input : List (List ℚ)) (h : l.mask.length < input.length) :
    ((growMask l.mask input.length).length = input.length)
    ∧ (∀ s, s < l.mask.length →
        (growMask l.mask input.length).getD s [] = l.mask.getD s [])
    ∧ (∀ s, l.mask.length ≤ s → s < input.length →
        (growMask l.mask input.length).getD s [] = l.mask.getD 0 [])
    ∧ ((l.forward_propagation draws input).1.mask.length = input.length)
    ∧ (∀ (draws2 : ℕ → ℕ → Bool) (input2 : List (List ℚ)),
        l.mask.length
          ≤ (l.forward_propagation draws2 input2).1.mask.length) := by
  refine ⟨?_, ?_, ?_, ?_, ?_⟩
  · rw [growMask_length]
    omega
  · exact fun s hs => growMask_getD_lt l.mask input.length s hs
  · exact fun s hs1 hs2 => growMask_getD_ge l.mask input.length s h hs1 hs2
  · rw [forward_mask_length]
    omega
  · intro draws2 input2
    rw [forward_mask_length]
    omega


/-- Witness for C3: training layer, rate 1/2, all-keep draws, input [3,5];
the output unit equals scale times the input. -/
theorem forward_train_gates_witness :
    (exDrop.phase = NetPhase.train ∧ (0 : ℚ) < exDrop.dropout_rate
      ∧ exDrop.dropout_rate < 1
      ∧ (0 : ℕ) < ([[(3 : ℚ), 5]] : List (List ℚ)).length)
    ∧ ((((exDrop.forward_propagation exDraws [[3, 5]]).2.getD 0 []).getD 0 0
        = if exDraws 0 0
          then 1 / (1 - exDrop.dropout_rate)
            * (([[(3 : ℚ), 5]] : List (List ℚ)).getD 0 []).getD 0 0
          else 0)
      ∧ ((((exDrop.forward_propagation exDraws [[3, 5]]).2.getD 0 []).getD 0 0 = 0)
        ∨ (((exDrop.forward_propagation exDraws [[3, 5]]).2.getD 0 []).getD 0 0
            = 1 / (1 - exDrop.dropout_rate)
              * (([[(3 : ℚ), 5]] : List (List ℚ)).getD 0 []).getD 0 0))) :=
  ⟨⟨rfl, one_half_pos, one_half_lt_one, by decide⟩,
   forward_train_gates exDrop exDraws [[3, 5]] 0 0 rfl one_half_pos
     one_half_lt_one rfl (by decide) (by decide) (by decide) (by decide)
     (by decide)⟩

/-- Witness for C4: backward after a training forward replays the stored
mask bit of draw (0,0). -/
theorem back_propagation_uses_stored_mask_witness :
    ((0 : ℕ) < ([[(1 : ℚ), 2]] : List (List ℚ)).length
      ∧ exDrop.phase = NetPhase.train)
    ∧ ((((exDrop.back_propagation [[1, 2]] [[4, 5]]).getD 0 []).getD 0 0
        = ((exDrop.mask.getD 0 []).getD 0 0 : ℚ)
            * (([[(4 : ℚ), 5]] : List (List ℚ)).getD 0 []).getD 0 0)
      ∧ ((((exDrop.forward_propagation exDraws [[3, 5]]).1.back_propagation
            [[1, 2]] [[4, 5]]).getD 0 []).getD 0 0
          = (if exDraws 0 0 then (1 : ℚ) else 0)
              * (([[(4 : ℚ), 5]] : List (List ℚ)).getD 0 []).getD 0 0)) :=
  ⟨⟨by decide, rfl⟩,
   back_propagation_uses_stored_mask exDrop exDraws [[3, 5]] [[1, 2]] [[4, 5]]
     0 0 (by decide) (by decide) rfl (by decide) (by decide) (by decide)
     (by decide) (by decide)⟩

/-- Witness for C5: inference layer passes [3,5] through unchanged and
keeps its mask row. -/
theorem forward_inference_identity_witness :
    (exDropTest.phase = NetPhase.test)
    ∧ ((exDropTest.forward_propagation exDraws [[3, 5]]).2
        = ([[(3 : ℚ), 5]] : List (List ℚ)))
    ∧ ((exDropTest.forward_propagation exDraws [[3, 5]]).1.mask.getD 0 []
        = exDropTest.mask.getD 0 []) :=
  ⟨rfl,
   (forward_inference_identity exDropTest exDraws [[3, 5]] rfl one_half_pos
     one_half_lt_one).1,
   (forward_inference_identity exDropTest exDraws [[3, 5]] rfl one_half_pos
     one_half_lt_one).2.1 0 (by decide)⟩

/-- Witness for C6: a 2-sample batch grows the 1-row store to 2 rows. -/
theorem mask_store_growth_witness :
    (exDrop.mask.length < ([[(3 : ℚ), 5], [7, 9]] : List (List ℚ)).length)
    ∧ ((growMask exDrop.mask
        ([[(3 : ℚ), 5], [7, 9]] : List (List ℚ)).length).length
      = ([[(3 : ℚ), 5], [7, 9]] : List (List ℚ)).length)
    ∧ ((exDrop.forward_propagation exDraws [[3, 5], [7, 9]]).1.mask.length
      = ([[(3 : ℚ), 5], [7, 9]] : List (List ℚ)).length) :=
  ⟨by decide,
   (mask_store_growth exDrop exDraws [[3, 5], [7, 9]] (by decide)).1,
   (mask_store_growth exDrop exDraws [[3, 5], [7, 9]] (by decide)).2.2.2.1⟩


end dropout_layer

end TinyDnn
